import Mathlib

/-!
Verification of the pbloom Bloom filter (Go implementation, `pbloom.go`).

The filter state consists of the bitmap bytes `bits` and the hash-round
count `k`.  The murmur3 hasher field of the Go struct is reset on every
`Put`/`Exists` call and carries no state across calls, so it is not part
of the embedded state.  `Put` and `Exists` both derive the same pair of
64-bit base hashes `(h1, h2)` from the key via `murmur3.Sum128`; murmur3
is an external library, so the operations here are parametrized by that
pair, and a universally quantified `(h1, h2)` stands for an arbitrary key.
-/

namespace PBloom

/-- The Go struct `Filter`: bitmap bytes and hash-round count.  Each entry
of `bits` is a byte value; `k` is a `uint8` in Go (its range is carried as
a hypothesis where it matters). -/
structure Filter where
  bits : List Nat
  k : Nat
  deriving DecidableEq

/-- `M := uint64(len(f.bits) * 8)` — the number of bits in the bitmap. -/
def Mof (bits : List Nat) : Nat := bits.length * 8

/-- `hash := (h1 + i*h2) % M`, the addition and multiplication performed in
Go `uint64` arithmetic, i.e. wrapping modulo `2^64`. -/
def hashIdx (m h1 h2 i : Nat) : Nat := ((h1 + i * h2) % 2 ^ 64) % m

/-- `f.bits[hash/8] |= 1 << (hash % 8)` — one iteration of the `Put` loop.
`List.set` is a no-op out of range; in-range access is proved separately
(claim C10). -/
def setBitAt (bits : List Nat) (hash : Nat) : List Nat :=
  bits.set (hash / 8) (bits.getD (hash / 8) 0 ||| 1 <<< (hash % 8))

/-- The `Put` loop: executes rounds `i, i+1, ..., i+n-1`. -/
def putLoop (m h1 h2 : Nat) (bits : List Nat) (i : Nat) : Nat → List Nat
  | 0 => bits
  | n + 1 => putLoop m h1 h2 (setBitAt bits (hashIdx m h1 h2 i)) (i + 1) n

/-- `Put`: sets the `k` double-hashed bit positions of the key. -/
def Filter.put (f : Filter) (h1 h2 : Nat) : Filter :=
  ⟨putLoop (Mof f.bits) h1 h2 f.bits 0 f.k, f.k⟩

/-- `f.bits[hash/8] & (1 << (hash % 8)) != 0` — the bit test of `Exists`. -/
def testBit (bits : List Nat) (hash : Nat) : Bool :=
  bits.getD (hash / 8) 0 &&& 1 <<< (hash % 8) != 0

/-- The `Exists` loop: checks rounds `i, ..., i+n-1` and returns `false` at
the first unset bit. -/
def existsLoop (m h1 h2 : Nat) (bits : List Nat) (i : Nat) : Nat → Bool
  | 0 => true
  | n + 1 =>
    if testBit bits (hashIdx m h1 h2 i) then existsLoop m h1 h2 bits (i + 1) n
    else false

/-- `Exists`: true iff all `k` double-hashed bits of the key are set.  The
Go method mutates only the scratch hasher, never `bits` or `k`, so it is
embedded as a pure function of the filter. -/
def Filter.exists_ (f : Filter) (h1 h2 : Nat) : Bool :=
  existsLoop (Mof f.bits) h1 h2 f.bits 0 f.k

/-- MessagePack `EncodeBytes` for a non-nil slice (vmihailenco/msgpack v5,
an external dependency): a bin8/bin16/bin32 header followed by the raw
bytes.  The bin32 header stores the length as `uint32`, hence the `% 256`
truncations of the four header bytes.  A `Filter`'s `bits` comes from
`make` and is never nil, so the nil branch of the library is not modelled. -/
def encodeBytes (v : List Nat) : List Nat :=
  if v.length < 256 then 0xc4 :: v.length :: v
  else if v.length < 65536 then 0xc5 :: v.length / 256 :: v.length % 256 :: v
  else 0xc6 :: v.length / 2 ^ 24 % 256 :: v.length / 2 ^ 16 % 256 ::
    v.length / 2 ^ 8 % 256 :: v.length % 256 :: v

/-- MessagePack `EncodeUint8`: the uint8 code `0xcc` followed by the value. -/
def encodeUint8 (k : Nat) : List Nat := [0xcc, k]

/-- `Serialize`: `EncodeBytes(f.bits)` then `EncodeUint8(f.k)`.  Writing to
the in-memory `bytes.Buffer` cannot fail, so the Go error result is always
nil and the encoding is embedded as a pure function. -/
def Filter.Serialize (f : Filter) : List Nat :=
  encodeBytes f.bits ++ encodeUint8 f.k

/-- Read `n` bytes from the input, failing on a short read as the decoder's
`io.ReadFull` does. -/
def readN (n : Nat) (input : List Nat) : Except String (List Nat × List Nat) :=
  if n ≤ input.length then .ok (input.take n, input.drop n) else .error "EOF"

/-- MessagePack `DecodeBytes` (vmihailenco/msgpack v5): accepts nil `0xc0`,
the bin family `0xc4/0xc5/0xc6` and the str family (fixstr, `0xd9/0xda/0xdb`),
returning the payload bytes; any other leading code is an invalid-code
error, and a missing header or payload byte is an EOF error. -/
def decodeBytes : List Nat → Except String (List Nat × List Nat)
  | [] => .error "EOF"
  | c :: rest =>
    if c = 0xc0 then .ok ([], rest)
    else if 0xa0 ≤ c ∧ c ≤ 0xbf then readN (c - 0xa0) rest
    else if c = 0xc4 ∨ c = 0xd9 then
      match rest with
      | [] => .error "EOF"
      | l :: rest2 => readN l rest2
    else if c = 0xc5 ∨ c = 0xda then
      match rest with
      | l1 :: l2 :: rest2 => readN (l1 * 256 + l2) rest2
      | _ => .error "EOF"
    else if c = 0xc6 ∨ c = 0xdb then
      match rest with
      | l1 :: l2 :: l3 :: l4 :: rest2 =>
        readN (((l1 * 256 + l2) * 256 + l3) * 256 + l4) rest2
      | _ => .error "EOF"
    else .error "msgpack: invalid code decoding bytes"

/-- MessagePack `DecodeUint8` on the codes `Serialize` can produce and the
claims exercise: a positive fixint or the uint8 code `0xcc` followed by one
byte; other codes are rejected with an invalid-code error. -/
def decodeUint8 : List Nat → Except String (Nat × List Nat)
  | [] => .error "EOF"
  | c :: rest =>
    if c ≤ 0x7f then .ok (c, rest)
    else if c = 0xcc then
      match rest with
      | [] => .error "EOF"
      | b :: rest2 => .ok (b, rest2)
    else .error "msgpack: invalid code decoding uint8"

/-- `FromSerialized`: decode the bitmap, then the hash-round count, and
build the filter with no further validation (exactly as the Go function). -/
def FromSerialized (data : List Nat) : Except String Filter := do
  let (bits, rest) ← decodeBytes data
  let (k, _) ← decodeUint8 rest
  return ⟨bits, k⟩

/-- `NewFilterFromBits`: rejects empty `bits` and `k == 0`. -/
def NewFilterFromBits (bits : List Nat) (k : Nat) : Except String Filter :=
  if bits.length = 0 then .error "bits slice cannot be empty"
  else if k = 0 then .error "number of hash functions must be positive"
  else .ok ⟨bits, k⟩

section Sizing

open Classical

/-- Go `math.Round`: round half away from zero. -/
noncomputable def mathRound (x : ℝ) : ℤ :=
  if 0 ≤ x then ⌊x + 1 / 2⌋ else -⌊-x + 1 / 2⌋

/-- `NewFilterFromEntriesAndSize`: validates `entries > 0` and `size > 0`,
allocates `size` zero bytes and sets `k = uint8(ceil((size*8 / entries) * ln 2))`.
The Go float64 arithmetic is embedded as exact real arithmetic, and the
`uint8(k)` conversion of the integral ceiling value keeps its low 8 bits
(gc lowers float-to-uint8 through int64 truncation), embedded as
`.toNat % 256`. -/
noncomputable def NewFilterFromEntriesAndSize (entries size : ℤ) :
    Except String Filter :=
  if entries ≤ 0 then .error "number of entries must be positive"
  else if size ≤ 0 then .error "size must be positive"
  else
    .ok ⟨List.replicate size.toNat 0,
      (⌈(((size * 8 : ℤ) : ℝ) / (entries : ℝ)) * Real.log 2⌉).toNat % 256⟩

/-- `NewFilterFromEntriesAndFP`: validates `entries > 0` and
`0 < fpRate < 1`; computes `m0 = -entries * ln fpRate / (ln 2)^2`, rounds
up to the next multiple of 8 (`m = ceil(m0/8)*8`, `size = m/8`), and sets
`k = uint8(round((m / entries) * ln 2))`.  Go float64 arithmetic embedded
as exact real arithmetic, and `uint8(k)` keeps the low 8 bits of the
integral rounded value, as above. -/
noncomputable def NewFilterFromEntriesAndFP (entries : ℤ) (fpRate : ℝ) :
    Except String Filter :=
  if entries ≤ 0 then .error "number of entries must be positive"
  else if fpRate ≤ 0 ∨ 1 ≤ fpRate then
    .error "false positive rate must be between 0 and 1"
  else
    let m0 : ℝ := -(entries : ℝ) * Real.log fpRate / Real.log 2 ^ 2
    let size : ℤ := ⌈m0 / 8⌉
    .ok ⟨List.replicate size.toNat 0,
      (mathRound ((((size * 8 : ℤ) : ℝ)) / (entries : ℝ) * Real.log 2)).toNat % 256⟩

end Sizing

/-! ### Helper lemmas about the bitmap operations -/

lemma length_setBitAt (bits : List Nat) (h : Nat) :
    (setBitAt bits h).length = bits.length := by
  simp [setBitAt]

lemma putLoop_succ (m h1 h2 : Nat) (bits : List Nat) (i n : Nat) :
    putLoop m h1 h2 bits i (n + 1) =
      putLoop m h1 h2 (setBitAt bits (hashIdx m h1 h2 i)) (i + 1) n := rfl

lemma length_putLoop (m h1 h2 : Nat) :
    ∀ (n : Nat) (bits : List Nat) (i : Nat),
      (putLoop m h1 h2 bits i n).length = bits.length := by
  intro n
  induction n with
  | zero => intro bits i; rfl
  | succ n ih =>
    intro bits i
    rw [putLoop_succ, ih, length_setBitAt]

lemma getD_set (l : List Nat) (i j v : Nat) :
    (l.set i v).getD j 0 = if i = j ∧ j < l.length then v else l.getD j 0 := by
  induction l generalizing i j with
  | nil => simp
  | cons a t ih =>
    cases i with
    | zero =>
      cases j with
      | zero => simp
      | succ jj => simp
    | succ ii =>
      cases j with
      | zero => simp
      | succ jj =>
        simp only [List.set, List.getD_cons_succ, List.length_cons, ih ii jj]
        by_cases hij : ii = jj ∧ jj < t.length
        · rw [if_pos hij, if_pos ⟨by omega, by omega⟩]
        · rw [if_neg hij, if_neg (by omega)]

lemma hashIdx_lt (m h1 h2 i : Nat) (hm : 0 < m) : hashIdx m h1 h2 i < m :=
  Nat.mod_lt _ hm

lemma hashIdx_div8_lt (bits : List Nat) (h1 h2 i : Nat) (hlen : 0 < bits.length) :
    hashIdx (Mof bits) h1 h2 i / 8 < bits.length := by
  have h := hashIdx_lt (Mof bits) h1 h2 i (by simp [Mof]; omega)
  have : hashIdx (Mof bits) h1 h2 i < bits.length * 8 := by simpa [Mof] using h
  omega

/-- The cumulative mask OR-ed into byte `j` by rounds `i, ..., i+n-1`. -/
def extraMask (m h1 h2 j i : Nat) : Nat → Nat
  | 0 => 0
  | n + 1 =>
    (if hashIdx m h1 h2 i / 8 = j then 1 <<< (hashIdx m h1 h2 i % 8) else 0) |||
      extraMask m h1 h2 j (i + 1) n

lemma getD_setBitAt (bits : List Nat) (h j : Nat) (hdiv : h / 8 < bits.length) :
    (setBitAt bits h).getD j 0 =
      bits.getD j 0 ||| (if h / 8 = j then 1 <<< (h % 8) else 0) := by
  unfold setBitAt
  rw [getD_set]
  by_cases hj : h / 8 = j
  · rw [if_pos ⟨hj, hj ▸ hdiv⟩, if_pos hj, hj]
  · rw [if_neg (by tauto), if_neg hj]; simp

/-- Bytewise effect of the `Put` loop: each byte of the result is the old
byte OR-ed with the accumulated mask of the rounds that address it. -/
lemma getD_putLoop (m h1 h2 : Nat) :
    ∀ (n : Nat) (bits : List Nat) (i j : Nat), 0 < bits.length →
      m = bits.length * 8 →
      (putLoop m h1 h2 bits i n).getD j 0 =
        bits.getD j 0 ||| extraMask m h1 h2 j i n := by
  intro n
  induction n with
  | zero => intro bits i j _ _; simp [putLoop, extraMask]
  | succ n ih =>
    intro bits i j hlen hm
    have hdiv : hashIdx m h1 h2 i / 8 < bits.length := by
      have := hashIdx_div8_lt bits h1 h2 i hlen
      simpa [Mof, hm] using this
    rw [putLoop_succ, ih (setBitAt bits (hashIdx m h1 h2 i)) (i + 1) j
        (by rw [length_setBitAt]; exact hlen) (by rw [length_setBitAt]; exact hm),
      getD_setBitAt bits _ j hdiv, extraMask, Nat.lor_assoc]

lemma testBit_eq (bits : List Nat) (h : Nat) :
    testBit bits h = Nat.testBit (bits.getD (h / 8) 0) (h % 8) := by
  unfold testBit
  rw [Nat.shiftLeft_eq, one_mul, Nat.and_two_pow]
  cases hb : Nat.testBit (bits.getD (h / 8) 0) (h % 8)
  · simp [hb]
  · simp [hb, (Nat.two_pow_pos (h % 8)).ne']

/-- Which single bits the accumulated mask contains. -/
lemma testBit_extraMask (m h1 h2 j : Nat) :
    ∀ (n i s : Nat),
      Nat.testBit (extraMask m h1 h2 j i n) s = true ↔
        ∃ t, t < n ∧ hashIdx m h1 h2 (i + t) / 8 = j ∧
          hashIdx m h1 h2 (i + t) % 8 = s := by
  intro n
  induction n with
  | zero => intro i s; simp [extraMask]
  | succ n ih =>
    intro i s
    rw [extraMask, Nat.testBit_lor]
    constructor
    · intro hor
      rcases Bool.or_eq_true_iff.mp hor with h0 | hrest
      · refine ⟨0, by omega, ?_, ?_⟩
        · by_cases hc : hashIdx m h1 h2 i / 8 = j
          · simpa using hc
          · rw [if_neg hc] at h0; simp [Nat.zero_testBit] at h0
        · by_cases hc : hashIdx m h1 h2 i / 8 = j
          · rw [if_pos hc, Nat.shiftLeft_eq, one_mul, Nat.testBit_two_pow] at h0
            simpa [Nat.add_zero] using of_decide_eq_true h0
          · rw [if_neg hc] at h0; simp [Nat.zero_testBit] at h0
      · obtain ⟨t, ht, hdj, hms⟩ := (ih (i + 1) s).mp hrest
        exact ⟨t + 1, by omega, by rw [show i + (t + 1) = i + 1 + t by omega]; exact hdj,
          by rw [show i + (t + 1) = i + 1 + t by omega]; exact hms⟩
    · rintro ⟨t, ht, hdj, hms⟩
      cases t with
      | zero =>
        apply Bool.or_eq_true_iff.mpr; left
        simp only [Nat.add_zero] at hdj hms
        rw [if_pos hdj, Nat.shiftLeft_eq, one_mul, Nat.testBit_two_pow]
        exact decide_eq_true hms
      | succ t =>
        apply Bool.or_eq_true_iff.mpr; right
        exact (ih (i + 1) s).mpr ⟨t, by omega,
          by rw [show i + 1 + t = i + (t + 1) by omega]; exact hdj,
          by rw [show i + 1 + t = i + (t + 1) by omega]; exact hms⟩

/-- The `Exists` loop succeeds iff every checked bit is set. -/
lemma existsLoop_iff (m h1 h2 : Nat) (bits : List Nat) :
    ∀ (n i : Nat),
      existsLoop m h1 h2 bits i n = true ↔
        ∀ t, t < n → testBit bits (hashIdx m h1 h2 (i + t)) = true := by
  intro n
  induction n with
  | zero => intro i; simp [existsLoop]
  | succ n ih =>
    intro i
    unfold existsLoop
    by_cases hb : testBit bits (hashIdx m h1 h2 i) = true
    · rw [if_pos hb, ih (i + 1)]
      constructor
      · intro hall t ht
        cases t with
        | zero => simpa using hb
        | succ t => rw [show i + (t + 1) = i + 1 + t by omega]; exact hall t (by omega)
      · intro hall t ht
        rw [show i + 1 + t = i + (t + 1) by omega]; exact hall (t + 1) (by omega)
    · rw [if_neg hb]
      constructor
      · intro h; exact absurd h (by simp)
      · intro hall; exact absurd (by simpa using hall 0 (by omega)) hb

lemma put_bits_length (f : Filter) (h1 h2 : Nat) :
    (f.put h1 h2).bits.length = f.bits.length := by
  simp [Filter.put, length_putLoop]

lemma put_k (f : Filter) (h1 h2 : Nat) : (f.put h1 h2).k = f.k := rfl

lemma put_bits_getD (f : Filter) (h1 h2 j : Nat) (hlen : 0 < f.bits.length) :
    (f.put h1 h2).bits.getD j 0 =
      f.bits.getD j 0 ||| extraMask (Mof f.bits) h1 h2 j 0 f.k := by
  exact getD_putLoop (Mof f.bits) h1 h2 f.k f.bits 0 j hlen rfl

/-- Every bit set before `Put` is still set after. -/
lemma testBit_put_mono (f : Filter) (h1 h2 h : Nat) (hlen : 0 < f.bits.length)
    (hset : testBit f.bits h = true) : testBit (f.put h1 h2).bits h = true := by
  rw [testBit_eq] at hset ⊢
  rw [put_bits_getD f h1 h2 _ hlen, Nat.testBit_lor, hset, Bool.true_or]

/-- After `Put`, each of the `k` addressed bits is set. -/
lemma testBit_put_self (f : Filter) (h1 h2 i : Nat) (hlen : 0 < f.bits.length)
    (hi : i < f.k) :
    testBit (f.put h1 h2).bits (hashIdx (Mof f.bits) h1 h2 i) = true := by
  rw [testBit_eq, put_bits_getD f h1 h2 _ hlen, Nat.testBit_lor]
  apply Bool.or_eq_true_iff.mpr; right
  exact (testBit_extraMask (Mof f.bits) h1 h2 _ f.k 0 _).mpr
    ⟨i, hi, by simp, by simp⟩

/-- `Exists` in terms of the individual bit tests. -/
lemma exists_iff (f : Filter) (h1 h2 : Nat) :
    f.exists_ h1 h2 = true ↔
      ∀ i, i < f.k → testBit f.bits (hashIdx (Mof f.bits) h1 h2 i) = true := by
  unfold Filter.exists_
  rw [existsLoop_iff]
  constructor
  · intro hall i hi; simpa using hall i hi
  · intro hall t ht; simpa using hall t ht

/-- Lists of equal length with equal `getD` values are equal. -/
lemma list_ext_getD : ∀ (l1 l2 : List Nat), l1.length = l2.length →
    (∀ j, l1.getD j 0 = l2.getD j 0) → l1 = l2 := by
  intro l1
  induction l1 with
  | nil => intro l2 hlen _; cases l2 with
    | nil => rfl
    | cons b t => simp at hlen
  | cons a t ih =>
    intro l2 hlen hall
    cases l2 with
    | nil => simp at hlen
    | cons b t2 =>
      have h0 := hall 0
      simp only [List.getD_cons_zero] at h0
      have := ih t2 (by simpa using hlen) (fun j => by simpa using hall (j + 1))
      rw [h0, this]

lemma lor_self_right (a b : Nat) : a ||| b ||| b = a ||| b := by
  rw [Nat.lor_assoc]
  congr 1
  apply Nat.eq_of_testBit_eq
  intro i
  rw [Nat.testBit_lor, Bool.or_self]

/-- Re-inserting the same key changes nothing. -/
lemma put_put (f : Filter) (h1 h2 : Nat) (hlen : 0 < f.bits.length) :
    (f.put h1 h2).put h1 h2 = f.put h1 h2 := by
  have hlen1 : 0 < (f.put h1 h2).bits.length := by rwa [put_bits_length]
  have hmof : Mof (f.put h1 h2).bits = Mof f.bits := by
    simp [Mof, put_bits_length]
  have hbits : ((f.put h1 h2).put h1 h2).bits = (f.put h1 h2).bits := by
    apply list_ext_getD
    · rw [put_bits_length]
    · intro j
      rw [put_bits_getD _ h1 h2 j hlen1, put_bits_getD f h1 h2 j hlen, hmof,
        put_k, lor_self_right]
  have hk : ((f.put h1 h2).put h1 h2).k = (f.put h1 h2).k := put_k _ h1 h2
  cases hq : (f.put h1 h2).put h1 h2
  cases hr : f.put h1 h2
  rw [hq, hr] at hbits hk
  simp only at hbits hk
  rw [hbits, hk]

lemma mof_put (f : Filter) (h1 h2 : Nat) : Mof (f.put h1 h2).bits = Mof f.bits := by
  simp [Mof, put_bits_length]

/-- After inserting a key, its query succeeds. -/
lemma exists_after_put (f : Filter) (h1 h2 : Nat) (hlen : 0 < f.bits.length) :
    (f.put h1 h2).exists_ h1 h2 = true := by
  rw [exists_iff]
  intro i hi
  rw [mof_put]
  exact testBit_put_self f h1 h2 i hlen (by rwa [put_k] at hi)

/-- A successful query stays successful after any further insertion. -/
lemma exists_mono (f : Filter) (a b c d : Nat) (hlen : 0 < f.bits.length)
    (h : f.exists_ a b = true) : (f.put c d).exists_ a b = true := by
  rw [exists_iff] at h ⊢
  intro i hi
  rw [mof_put]
  exact testBit_put_mono f c d _ hlen (h i (by rwa [put_k] at hi))

lemma foldl_put_length (seq : List (Nat × Nat)) :
    ∀ f : Filter,
      (seq.foldl (fun g q => g.put q.1 q.2) f).bits.length = f.bits.length := by
  induction seq with
  | nil => intro f; rfl
  | cons q rest ih =>
    intro f
    simpa [List.foldl_cons, put_bits_length] using ih (f.put q.1 q.2)

lemma exists_foldl_mono (a b : Nat) (seq : List (Nat × Nat)) :
    ∀ f : Filter, 0 < f.bits.length → f.exists_ a b = true →
      (seq.foldl (fun g q => g.put q.1 q.2) f).exists_ a b = true := by
  induction seq with
  | nil => intro f _ h; exact h
  | cons q rest ih =>
    intro f hlen h
    exact ih (f.put q.1 q.2) (by rwa [put_bits_length]) (exists_mono f a b q.1 q.2 hlen h)

/-- C1: No false negatives — for every filter with at least one byte of
bitmap and at least one hash round, and every key (represented by its pair
of 64-bit base hashes), after any sequence of `Put` calls that includes a
`Put` of that key, `Exists` of that key returns true. -/
theorem C1_no_false_negatives (f : Filter) (seq : List (Nat × Nat))
    (p : Nat × Nat) (hlen : 1 ≤ f.bits.length) (hk : 1 ≤ f.k) (hmem : p ∈ seq) :
    (seq.foldl (fun g q => g.put q.1 q.2) f).exists_ p.1 p.2 = true := by
  induction seq generalizing f hlen with
  | nil => cases hmem
  | cons q rest ih =>
    rcases List.mem_cons.mp hmem with hpq | hprest
    · subst hpq
      exact exists_foldl_mono p.1 p.2 rest (f.put p.1 p.2)
        (by rwa [put_bits_length]) (exists_after_put f p.1 p.2 hlen)
    · exact ih (f.put q.1 q.2) (by rwa [put_bits_length]) (by rwa [put_k]) hprest

/-- C1 witness: a concrete filter, insertion sequence, and key. -/
theorem C1_no_false_negatives_witness :
    (([((0 : Nat), (0 : Nat))]).foldl (fun g q => g.put q.1 q.2)
      (Filter.mk [0] 1)).exists_ 0 0 = true :=
  C1_no_false_negatives (Filter.mk [0] 1) [(0, 0)] (0, 0)
    (by decide) (by decide) (by decide)

/-- C3: Double-hashing semantics — both operations address round `i` at
bit index `(h1 + i*h2) mod 2^64 mod M` with `M = len(bits)*8` (first
conjunct), byte `hash_i/8` and mask `1 << (hash_i % 8)`; `Put` sets each
of the `k` addressed bits (second conjunct) and sets exactly those — a bit
of the result is set iff it was set before or some round addresses it
(third conjunct); `Exists` returns true iff all `k` addressed bits are
set, and false exactly when some round finds an unset bit (the loop exits
at the first such round). -/
theorem C3_double_hashing (f : Filter) (h1 h2 : Nat)
    (hlen : 1 ≤ f.bits.length) :
    (∀ i, hashIdx (Mof f.bits) h1 h2 i =
      (h1 + i * h2) % 2 ^ 64 % (f.bits.length * 8)) ∧
    (∀ i, i < f.k →
      testBit (f.put h1 h2).bits (hashIdx (Mof f.bits) h1 h2 i) = true) ∧
    (∀ j s, j < f.bits.length → s < 8 →
      (Nat.testBit ((f.put h1 h2).bits.getD j 0) s = true ↔
        (Nat.testBit (f.bits.getD j 0) s = true ∨
          ∃ i, i < f.k ∧ hashIdx (Mof f.bits) h1 h2 i = 8 * j + s))) ∧
    (f.exists_ h1 h2 = true ↔
      ∀ i, i < f.k → testBit f.bits (hashIdx (Mof f.bits) h1 h2 i) = true) ∧
    (f.exists_ h1 h2 = false ↔
      ∃ i, i < f.k ∧ testBit f.bits (hashIdx (Mof f.bits) h1 h2 i) = false) := by
  have hlen0 : 0 < f.bits.length := hlen
  have hiff := exists_iff f h1 h2
  refine ⟨fun i => rfl, ?_, ?_, hiff, ?_⟩
  · intro i hi
    exact testBit_put_self f h1 h2 i hlen0 hi
  · intro j s hj hs
    rw [put_bits_getD f h1 h2 j hlen0, Nat.testBit_lor, Bool.or_eq_true_iff]
    constructor
    · rintro (hold | hmask)
      · exact Or.inl hold
      · right
        obtain ⟨t, ht, hdj, hms⟩ :=
          (testBit_extraMask (Mof f.bits) h1 h2 j f.k 0 s).mp hmask
        refine ⟨t, ht, ?_⟩
        have hdm := Nat.div_add_mod (hashIdx (Mof f.bits) h1 h2 (0 + t)) 8
        simp only [Nat.zero_add] at hdj hms hdm
        omega
    · rintro (hold | ⟨i, hi, heq⟩)
      · exact Or.inl hold
      · right
        apply (testBit_extraMask (Mof f.bits) h1 h2 j f.k 0 s).mpr
        refine ⟨i, hi, ?_, ?_⟩ <;>
          · simp only [Nat.zero_add]
            omega
  · constructor
    · intro hfalse
      by_contra hno
      push_neg at hno
      have hall : ∀ i, i < f.k →
          testBit f.bits (hashIdx (Mof f.bits) h1 h2 i) = true := by
        intro i hi
        cases hb : testBit f.bits (hashIdx (Mof f.bits) h1 h2 i)
        · exact absurd hb (hno i hi)
        · rfl
      rw [hiff.mpr hall] at hfalse
      exact absurd hfalse (by simp)
    · rintro ⟨i, hi, hbit⟩
      cases hE : f.exists_ h1 h2
      · rfl
      · have := hiff.mp hE i hi
        rw [this] at hbit
        exact absurd hbit (by simp)

/-- C3 witness: the `Exists` characterization at a concrete filter. -/
theorem C3_double_hashing_witness :
    (Filter.mk [0] 1).exists_ 0 0 = true ↔
      ∀ i, i < (Filter.mk [0] 1).k →
        testBit (Filter.mk [0] 1).bits
          (hashIdx (Mof (Filter.mk [0] 1).bits) 0 0 i) = true :=
  (C3_double_hashing (Filter.mk [0] 1) 0 0 (by decide)).2.2.2.1

/-- C7: State invariant under operations — `Put` preserves the bitmap
length and `k`, each byte after `Put` is the OR of its old value with the
mask bits of the rounds addressing it, and every set bit stays set (bits
only go 0 to 1).  `Exists` is embedded as a pure function because the Go
method only touches the scratch hasher, never `bits` or `k`. -/
theorem C7_state_invariant (f : Filter) (h1 h2 : Nat)
    (hlen : 1 ≤ f.bits.length) :
    (f.put h1 h2).bits.length = f.bits.length ∧ (f.put h1 h2).k = f.k ∧
    (∀ j, (f.put h1 h2).bits.getD j 0 =
      f.bits.getD j 0 ||| extraMask (Mof f.bits) h1 h2 j 0 f.k) ∧
    (∀ h, testBit f.bits h = true → testBit (f.put h1 h2).bits h = true) := by
  exact ⟨put_bits_length f h1 h2, put_k f h1 h2,
    fun j => put_bits_getD f h1 h2 j hlen,
    fun h => testBit_put_mono f h1 h2 h hlen⟩

/-- C7 witness: length preservation at a concrete filter. -/
theorem C7_state_invariant_witness :
    ((Filter.mk [0] 1).put 0 0).bits.length = (Filter.mk [0] 1).bits.length :=
  (C7_state_invariant (Filter.mk [0] 1) 0 0 (by decide)).1

/-- C8: Idempotence — inserting the same key `n ≥ 1` times leaves the
filter in exactly the state of a single insertion. -/
theorem C8_idempotent (f : Filter) (h1 h2 n : Nat) (hlen : 1 ≤ f.bits.length)
    (hn : 1 ≤ n) : (fun g : Filter => g.put h1 h2)^[n] f = f.put h1 h2 := by
  obtain ⟨m, rfl⟩ : ∃ m, n = m + 1 := ⟨n - 1, by omega⟩
  clear hn
  induction m generalizing f hlen with
  | zero => simp
  | succ m ih =>
    rw [Function.iterate_succ_apply,
      ih (f.put h1 h2) (by rwa [put_bits_length]), put_put f h1 h2 hlen]

/-- C8 witness: two insertions equal one at a concrete filter. -/
theorem C8_idempotent_witness :
    (fun g : Filter => g.put 0 0)^[2] (Filter.mk [0] 1) =
      (Filter.mk [0] 1).put 0 0 :=
  C8_idempotent (Filter.mk [0] 1) 0 0 2 (by decide) (by decide)

/-- C10: In-bounds access — for a non-empty bitmap the modulus `M` is
nonzero, every computed bit index is below `M`, and the addressed byte
index is below `len(bits)`, so the byte accesses of `Put` and `Exists`
never go out of range. -/
theorem C10_in_bounds (bits : List Nat) (h1 h2 i : Nat)
    (hlen : 1 ≤ bits.length) :
    0 < Mof bits ∧ hashIdx (Mof bits) h1 h2 i < Mof bits ∧
      hashIdx (Mof bits) h1 h2 i / 8 < bits.length := by
  have hm : 0 < Mof bits := by simp [Mof]; omega
  exact ⟨hm, hashIdx_lt (Mof bits) h1 h2 i hm, hashIdx_div8_lt bits h1 h2 i hlen⟩

/-- C10 witness: the bounds at a concrete bitmap and hash pair. -/
theorem C10_in_bounds_witness :
    0 < Mof [0] ∧ hashIdx (Mof [0]) 0 0 0 < Mof [0] ∧
      hashIdx (Mof [0]) 0 0 0 / 8 < [(0 : Nat)].length :=
  C10_in_bounds [0] 0 0 0 (by decide)

/-! ### Serialization round-trip -/

lemma readN_append (v w : List Nat) : readN v.length (v ++ w) = .ok (v, w) := by
  unfold readN
  rw [if_pos (by simp)]
  simp

/-- Decoding undoes encoding, for any bitmap whose length fits the bin32
header's `uint32` length field. -/
lemma decodeBytes_encodeBytes (v rest : List Nat) (hlen : v.length < 2 ^ 32) :
    decodeBytes (encodeBytes v ++ rest) = .ok (v, rest) := by
  unfold encodeBytes
  by_cases hb8 : v.length < 256
  · rw [if_pos hb8]
    simp only [List.cons_append, decodeBytes]
    norm_num
    exact readN_append v rest
  · by_cases hb16 : v.length < 65536
    · rw [if_neg hb8, if_pos hb16]
      simp only [List.cons_append, decodeBytes]
      norm_num
      rw [show v.length / 256 * 256 + v.length % 256 = v.length from by omega]
      exact readN_append v rest
    · rw [if_neg hb8, if_neg hb16]
      simp only [List.cons_append, decodeBytes]
      norm_num
      have hlen4 : ((v.length / 16777216 % 256 * 256 + v.length / 65536 % 256) * 256 +
          v.length / 256 % 256) * 256 + v.length % 256 = v.length := by omega
      rw [hlen4]
      exact readN_append v rest

lemma decodeUint8_cc (k : Nat) (rest : List Nat) :
    decodeUint8 (0xcc :: k :: rest) = .ok (k, rest) := by
  simp [decodeUint8]

/-- C2 (amended): Round-trip — serializing a filter with
`1 <= len(bits) < 2^32` and `k` in the `uint8` range (the Go type
invariant) and deserializing yields a filter with identical `bits` and
`k`, and hence identical `Exists` results for every key.  `Serialize`
itself is total: it is a pure function in this embedding because writing
to the in-memory buffer cannot fail.  For `len(bits) >= 2^32` the bin32
header's `uint32` length wraps and the round-trip fails — see the
counterexample. -/
theorem C2_round_trip (f : Filter) (hlen : 1 ≤ f.bits.length)
    (hsz : f.bits.length < 2 ^ 32) (hk : f.k < 256) :
    FromSerialized f.Serialize = .ok (Filter.mk f.bits f.k) ∧
    ∀ g, FromSerialized f.Serialize = .ok g →
      g.bits = f.bits ∧ g.k = f.k ∧ ∀ a b, g.exists_ a b = f.exists_ a b := by
  have hdec : FromSerialized f.Serialize = .ok (Filter.mk f.bits f.k) := by
    unfold FromSerialized Filter.Serialize encodeUint8
    rw [show encodeBytes f.bits ++ [0xcc, f.k] =
      encodeBytes f.bits ++ ([0xcc, f.k] : List Nat) from rfl]
    rw [decodeBytes_encodeBytes f.bits [0xcc, f.k] hsz]
    simp [decodeUint8_cc, Bind.bind, Except.bind, Pure.pure, Except.pure]
  refine ⟨hdec, fun g hg => ?_⟩
  rw [hdec] at hg
  injection hg with hg
  subst hg
  exact ⟨rfl, rfl, fun a b => rfl⟩

/-- C2 witness: round trip of a concrete filter. -/
theorem C2_round_trip_witness :
    FromSerialized (Filter.Serialize (Filter.mk [0] 1)) =
      .ok (Filter.mk [0] 1) :=
  (C2_round_trip (Filter.mk [0] 1) (by decide) (by norm_num) (by decide)).1

lemma decodeBytes_c6 (l1 l2 l3 l4 : Nat) (rest2 : List Nat) :
    decodeBytes (0xc6 :: l1 :: l2 :: l3 :: l4 :: rest2) =
      readN (((l1 * 256 + l2) * 256 + l3) * 256 + l4) rest2 := by
  simp only [decodeBytes]
  norm_num

lemma readN_zero (input : List Nat) : readN 0 input = .ok ([], input) := by
  unfold readN
  rw [if_pos (Nat.zero_le _), List.take_zero, List.drop_zero]

lemma decodeUint8_fixint (c : Nat) (hc : c ≤ 0x7f) (rest : List Nat) :
    decodeUint8 (c :: rest) = .ok (c, rest) := by
  simp only [decodeUint8]
  rw [if_pos hc]

lemma FromSerialized_steps (data bits rest rest2 : List Nat) (k : Nat)
    (hd : decodeBytes data = .ok (bits, rest))
    (hu : decodeUint8 rest = .ok (k, rest2)) :
    FromSerialized data = .ok ⟨bits, k⟩ := by
  unfold FromSerialized
  rw [hd]
  simp only [Bind.bind, Except.bind]
  rw [hu]
  rfl

/-- C2 counterexample: a filter whose bitmap has `2^32` bytes (length at
least 1, so inside the original claim) round-trips to the wrong state —
the encoder's bin32 header stores the length as `uint32`, which wraps
`2^32` to 0, so decoding returns empty bits and reads `k = 0` from the
first bitmap byte instead of the stored `k = 1`. -/
theorem C2_round_trip_counterexample :
    1 ≤ (List.replicate (2 ^ 32) (0 : Nat)).length ∧
    FromSerialized
      (Filter.Serialize (Filter.mk (List.replicate (2 ^ 32) 0) 1)) =
      .ok (Filter.mk [] 0) ∧
    ([] : List Nat) ≠ List.replicate (2 ^ 32) (0 : Nat) ∧ (0 : Nat) ≠ 1 := by
  refine ⟨?_, ?_, ?_, by norm_num⟩
  · rw [List.length_replicate]
    norm_num
  · have henc : encodeBytes (List.replicate (2 ^ 32) (0 : Nat)) =
        0xc6 :: 0 :: 0 :: 0 :: 0 :: List.replicate (2 ^ 32) 0 := by
      unfold encodeBytes
      rw [List.length_replicate]
      norm_num
    have hv : List.replicate (2 ^ 32) (0 : Nat) ++ [0xcc, 1] =
        0 :: (List.replicate (2 ^ 32 - 1) 0 ++ [0xcc, 1]) := by
      conv_lhs => rw [show (2 ^ 32 : ℕ) = (2 ^ 32 - 1) + 1 by norm_num,
        List.replicate_succ]
      rw [List.cons_append]
    simp only [Filter.Serialize, encodeUint8]
    rw [henc]
    simp only [List.cons_append]
    refine FromSerialized_steps _ _ (List.replicate (2 ^ 32) 0 ++ [0xcc, 1])
      (List.replicate (2 ^ 32 - 1) 0 ++ [0xcc, 1]) 0 ?_ ?_
    · rw [decodeBytes_c6,
        show ((0 * 256 + 0) * 256 + 0) * 256 + 0 = 0 from by norm_num]
      exact readN_zero _
    · rw [hv]
      exact decodeUint8_fixint 0 (by norm_num) _
  · intro h
    have hlen := congrArg List.length h
    simp only [List.length_nil, List.length_replicate] at hlen
    exact absurd hlen (by norm_num)

/-- True exactly when the decoding failed. -/
def isError {ε α : Type} : Except ε α → Bool
  | .error _ => true
  | .ok _ => false

/-- C9: Malformed-input deserialization — `FromSerialized` fails (returns
an error and no filter) on empty input, on the two-byte buffer `FF FF`,
and on the ASCII bytes of "random bytes". -/
theorem C9_malformed_inputs :
    isError (FromSerialized []) = true ∧
    isError (FromSerialized [0xff, 0xff]) = true ∧
    isError (FromSerialized
      [114, 97, 110, 100, 111, 109, 32, 98, 121, 116, 101, 115]) = true := by
  refine ⟨rfl, rfl, rfl⟩

/-- C5: Constructor validation — each constructor fails with the named
validation error exactly on the rejected parameter region, and succeeds
otherwise. -/
theorem C5_constructor_validation (entries size : ℤ) (fpRate : ℝ)
    (bits : List Nat) (k : Nat) :
    (entries ≤ 0 → NewFilterFromEntriesAndSize entries size =
      .error "number of entries must be positive") ∧
    (0 < entries → size ≤ 0 → NewFilterFromEntriesAndSize entries size =
      .error "size must be positive") ∧
    (0 < entries → 0 < size →
      ∃ f, NewFilterFromEntriesAndSize entries size = .ok f) ∧
    (entries ≤ 0 → NewFilterFromEntriesAndFP entries fpRate =
      .error "number of entries must be positive") ∧
    (0 < entries → (fpRate ≤ 0 ∨ 1 ≤ fpRate) →
      NewFilterFromEntriesAndFP entries fpRate =
        .error "false positive rate must be between 0 and 1") ∧
    (0 < entries → 0 < fpRate → fpRate < 1 →
      ∃ f, NewFilterFromEntriesAndFP entries fpRate = .ok f) ∧
    (bits.length = 0 →
      NewFilterFromBits bits k = .error "bits slice cannot be empty") ∧
    (bits.length ≠ 0 → k = 0 →
      NewFilterFromBits bits k = .error "number of hash functions must be positive") ∧
    (bits.length ≠ 0 → k ≠ 0 → NewFilterFromBits bits k = .ok (Filter.mk bits k)) := by
  refine ⟨?_, ?_, ?_, ?_, ?_, ?_, ?_, ?_, ?_⟩
  · intro he
    unfold NewFilterFromEntriesAndSize
    rw [if_pos he]
  · intro he hs
    unfold NewFilterFromEntriesAndSize
    rw [if_neg (by omega), if_pos hs]
  · intro he hs
    unfold NewFilterFromEntriesAndSize
    rw [if_neg (by omega), if_neg (by omega)]
    exact ⟨_, rfl⟩
  · intro he
    unfold NewFilterFromEntriesAndFP
    rw [if_pos he]
  · intro he hf
    unfold NewFilterFromEntriesAndFP
    rw [if_neg (by omega), if_pos hf]
  · intro he h0 h1
    unfold NewFilterFromEntriesAndFP
    rw [if_neg (by omega), if_neg (by push_neg; exact ⟨h0, h1⟩)]
    exact ⟨_, rfl⟩
  · intro hb
    unfold NewFilterFromBits
    rw [if_pos hb]
  · intro hb hk
    unfold NewFilterFromBits
    rw [if_neg hb, if_pos hk]
  · intro hb hk
    unfold NewFilterFromBits
    rw [if_neg hb, if_neg hk]

/-- C5 witness: two validation failures at concrete inputs. -/
theorem C5_constructor_validation_witness :
    NewFilterFromEntriesAndSize 0 128 =
      .error "number of entries must be positive" ∧
    NewFilterFromBits [] 3 = .error "bits slice cannot be empty" :=
  ⟨(C5_constructor_validation 0 128 (1 / 2) [] 3).1 (by decide),
    (C5_constructor_validation 0 128 (1 / 2) [] 3).2.2.2.2.2.2.1 rfl⟩

/-! ### Numeric bounds for the sizing calculators

`ln 10 / ln 2` is bracketed via integer power comparisons, which together
with Mathlib's decimal bounds on `ln 2` pins down every sizing value the
claims mention. -/

lemma log_ten_lb : (3.3218 : ℝ) * Real.log 2 < Real.log 10 := by
  have hnat : (2 : ℕ) ^ 16609 < 10 ^ 5000 := by norm_num
  have hreal : ((2 : ℝ)) ^ (16609 : ℕ) < (10 : ℝ) ^ (5000 : ℕ) := by
    exact_mod_cast hnat
  have hlog := Real.log_lt_log (by positivity) hreal
  rw [Real.log_pow, Real.log_pow] at hlog
  push_cast at hlog
  linarith

lemma log_ten_ub : Real.log 10 < (3.322 : ℝ) * Real.log 2 := by
  have hnat : (10 : ℕ) ^ 1000 < 2 ^ 3322 := by norm_num
  have hreal : ((10 : ℝ)) ^ (1000 : ℕ) < (2 : ℝ) ^ (3322 : ℕ) := by
    exact_mod_cast hnat
  have hlog := Real.log_lt_log (by positivity) hreal
  rw [Real.log_pow, Real.log_pow] at hlog
  push_cast at hlog
  linarith

lemma size_1000_128 :
    NewFilterFromEntriesAndSize 1000 128 = .ok ⟨List.replicate 128 0, 1⟩ := by
  have h2l := Real.log_two_gt_d9
  have h2u := Real.log_two_lt_d9
  have hlpos : (0 : ℝ) < Real.log 2 := Real.log_pos (by norm_num)
  unfold NewFilterFromEntriesAndSize
  rw [if_neg (by norm_num), if_neg (by norm_num)]
  have hk : (⌈(((128 * 8 : ℤ) : ℝ) / ((1000 : ℤ) : ℝ)) * Real.log 2⌉ : ℤ) = 1 := by
    apply Int.ceil_eq_iff.mpr
    constructor
    · push_cast
      nlinarith
    · push_cast
      nlinarith
  rw [hk]
  rfl

lemma size_500_128 :
    NewFilterFromEntriesAndSize 500 128 = .ok ⟨List.replicate 128 0, 2⟩ := by
  have h2l := Real.log_two_gt_d9
  have h2u := Real.log_two_lt_d9
  unfold NewFilterFromEntriesAndSize
  rw [if_neg (by norm_num), if_neg (by norm_num)]
  have hk : (⌈(((128 * 8 : ℤ) : ℝ) / ((500 : ℤ) : ℝ)) * Real.log 2⌉ : ℤ) = 2 := by
    apply Int.ceil_eq_iff.mpr
    constructor
    · push_cast
      nlinarith
    · push_cast
      nlinarith
  rw [hk]
  rfl

lemma fp_1000 :
    NewFilterFromEntriesAndFP 1000 (1 / 100) = .ok ⟨List.replicate 1199 0, 7⟩ := by
  have h2l := Real.log_two_gt_d9
  have h2u := Real.log_two_lt_d9
  have h10l := log_ten_lb
  have h10u := log_ten_ub
  have hlpos : (0 : ℝ) < Real.log 2 := Real.log_pos (by norm_num)
  have hlog : Real.log ((1 : ℝ) / 100) = -(2 * Real.log 10) := by
    rw [one_div, Real.log_inv, show (100 : ℝ) = 10 ^ (2 : ℕ) by norm_num,
      Real.log_pow]
    push_cast
    ring
  unfold NewFilterFromEntriesAndFP
  rw [if_neg (by norm_num), if_neg (by norm_num)]
  simp only [hlog]
  have hm0 : -((1000 : ℤ) : ℝ) * -(2 * Real.log 10) / Real.log 2 ^ 2 =
      2000 * Real.log 10 / Real.log 2 ^ 2 := by
    push_cast
    ring
  rw [hm0]
  have hm0l : (9584 : ℝ) < 2000 * Real.log 10 / Real.log 2 ^ 2 := by
    rw [lt_div_iff₀ (by positivity)]
    nlinarith [mul_lt_mul_of_pos_right h2u hlpos]
  have hm0u : 2000 * Real.log 10 / Real.log 2 ^ 2 ≤ (9592 : ℝ) := by
    rw [div_le_iff₀ (by positivity)]
    nlinarith [mul_lt_mul_of_pos_right h2l hlpos]
  have hsize : (⌈2000 * Real.log 10 / Real.log 2 ^ 2 / 8⌉ : ℤ) = 1199 := by
    apply Int.ceil_eq_iff.mpr
    constructor
    · push_cast
      linarith
    · push_cast
      linarith
  rw [hsize]
  have hk : mathRound (((1199 * 8 : ℤ) : ℝ) / ((1000 : ℤ) : ℝ) * Real.log 2) = 7 := by
    unfold mathRound
    rw [if_pos (by push_cast; nlinarith)]
    apply Int.floor_eq_iff.mpr
    constructor
    · push_cast
      nlinarith
    · push_cast
      nlinarith
  rw [hk]
  rfl

lemma fp_500 :
    NewFilterFromEntriesAndFP 500 (1 / 20) = .ok ⟨List.replicate 390 0, 4⟩ := by
  have h2l := Real.log_two_gt_d9
  have h2u := Real.log_two_lt_d9
  have h10l := log_ten_lb
  have h10u := log_ten_ub
  have hlpos : (0 : ℝ) < Real.log 2 := Real.log_pos (by norm_num)
  have hlog : Real.log ((1 : ℝ) / 20) = -(Real.log 2 + Real.log 10) := by
    rw [one_div, Real.log_inv, show (20 : ℝ) = 2 * 10 by norm_num,
      Real.log_mul (by norm_num) (by norm_num)]
  unfold NewFilterFromEntriesAndFP
  rw [if_neg (by norm_num), if_neg (by norm_num)]
  simp only [hlog]
  have hm0 : -((500 : ℤ) : ℝ) * -(Real.log 2 + Real.log 10) / Real.log 2 ^ 2 =
      500 * (Real.log 2 + Real.log 10) / Real.log 2 ^ 2 := by
    push_cast
    ring
  rw [hm0]
  have hm0l : (3112 : ℝ) < 500 * (Real.log 2 + Real.log 10) / Real.log 2 ^ 2 := by
    rw [lt_div_iff₀ (by positivity)]
    nlinarith [mul_lt_mul_of_pos_right h2u hlpos]
  have hm0u : 500 * (Real.log 2 + Real.log 10) / Real.log 2 ^ 2 ≤ (3120 : ℝ) := by
    rw [div_le_iff₀ (by positivity)]
    nlinarith [mul_lt_mul_of_pos_right h2l hlpos]
  have hsize : (⌈500 * (Real.log 2 + Real.log 10) / Real.log 2 ^ 2 / 8⌉ : ℤ) = 390 := by
    apply Int.ceil_eq_iff.mpr
    constructor
    · push_cast
      linarith
    · push_cast
      linarith
  rw [hsize]
  have hk : mathRound (((390 * 8 : ℤ) : ℝ) / ((500 : ℤ) : ℝ) * Real.log 2) = 4 := by
    unfold mathRound
    rw [if_pos (by push_cast; nlinarith)]
    apply Int.floor_eq_iff.mpr
    constructor
    · push_cast
      nlinarith
    · push_cast
      nlinarith
  rw [hk]
  rfl

/-- The FP constructor violates the `k >= 1` invariant for large target
rates: at `entries = 1000, fpRate = 0.8` it returns a filter with `k = 0`. -/
lemma fp_k_zero :
    NewFilterFromEntriesAndFP 1000 (4 / 5) = .ok ⟨List.replicate 59 0, 0⟩ := by
  have h2l := Real.log_two_gt_d9
  have h2u := Real.log_two_lt_d9
  have h10l := log_ten_lb
  have h10u := log_ten_ub
  have hlpos : (0 : ℝ) < Real.log 2 := Real.log_pos (by norm_num)
  have hlog : Real.log ((4 : ℝ) / 5) = 3 * Real.log 2 - Real.log 10 := by
    rw [Real.log_div (by norm_num) (by norm_num),
      show (4 : ℝ) = 2 ^ (2 : ℕ) by norm_num, Real.log_pow,
      show (5 : ℝ) = 10 / 2 by norm_num, Real.log_div (by norm_num) (by norm_num)]
    push_cast
    ring
  unfold NewFilterFromEntriesAndFP
  rw [if_neg (by norm_num), if_neg (by norm_num)]
  simp only [hlog]
  have hm0 : -((1000 : ℤ) : ℝ) * (3 * Real.log 2 - Real.log 10) / Real.log 2 ^ 2 =
      1000 * (Real.log 10 - 3 * Real.log 2) / Real.log 2 ^ 2 := by
    push_cast
    ring
  rw [hm0]
  have hm0l : (464 : ℝ) <
      1000 * (Real.log 10 - 3 * Real.log 2) / Real.log 2 ^ 2 := by
    rw [lt_div_iff₀ (by positivity)]
    nlinarith [mul_lt_mul_of_pos_right h2u hlpos]
  have hm0u : 1000 * (Real.log 10 - 3 * Real.log 2) / Real.log 2 ^ 2 ≤ (472 : ℝ) := by
    rw [div_le_iff₀ (by positivity)]
    nlinarith [mul_lt_mul_of_pos_right h2l hlpos]
  have hsize :
      (⌈1000 * (Real.log 10 - 3 * Real.log 2) / Real.log 2 ^ 2 / 8⌉ : ℤ) = 59 := by
    apply Int.ceil_eq_iff.mpr
    constructor
    · push_cast
      linarith
    · push_cast
      linarith
  rw [hsize]
  have hk : mathRound (((59 * 8 : ℤ) : ℝ) / ((1000 : ℤ) : ℝ) * Real.log 2) = 0 := by
    unfold mathRound
    rw [if_pos (by push_cast; nlinarith)]
    apply Int.floor_eq_iff.mpr
    constructor
    · push_cast
      nlinarith
    · push_cast
      nlinarith
  rw [hk]
  rfl

/-- The size constructor wraps `k` through `uint8`: at
`entries = 1000, size = 45986` the ceiling is exactly 256 and `uint8(256)`
keeps its low 8 bits, 0. -/
lemma size_k_wrap :
    NewFilterFromEntriesAndSize 1000 45986 =
      .ok ⟨List.replicate 45986 0, 0⟩ := by
  have h2l := Real.log_two_gt_d9
  have h2u := Real.log_two_lt_d9
  unfold NewFilterFromEntriesAndSize
  rw [if_neg (by norm_num), if_neg (by norm_num)]
  have hk : (⌈(((45986 * 8 : ℤ) : ℝ) / ((1000 : ℤ) : ℝ)) * Real.log 2⌉ : ℤ) =
      256 := by
    apply Int.ceil_eq_iff.mpr
    constructor
    · push_cast
      nlinarith
    · push_cast
      nlinarith
  rw [hk]
  rfl

/-- C4: Sizing correctness on the four worked examples —
`(1000 entries, 128 bytes)` gives `k = 1` and 128 bytes of bitmap,
`(500, 128)` gives `k = 2`, `(1000, fp 0.01)` gives 1199 bytes and
`k = 7`, and `(500, fp 0.05)` gives 390 bytes and `k = 4`. -/
theorem C4_sizing_examples :
    NewFilterFromEntriesAndSize 1000 128 = .ok ⟨List.replicate 128 0, 1⟩ ∧
    NewFilterFromEntriesAndSize 500 128 = .ok ⟨List.replicate 128 0, 2⟩ ∧
    NewFilterFromEntriesAndFP 1000 (1 / 100) = .ok ⟨List.replicate 1199 0, 7⟩ ∧
    NewFilterFromEntriesAndFP 500 (1 / 20) = .ok ⟨List.replicate 390 0, 4⟩ :=
  ⟨size_1000_128, size_500_128, fp_1000, fp_500⟩

/-- C6 counterexample: `FromSerialized` happily builds a filter with empty
`bits` and `k = 0` from a well-formed encoding of that state; the FP
constructor itself returns `k = 0` for `entries = 1000, fpRate = 0.8`; and
the size constructor returns `k = 0` at `entries = 1000, size = 45986`,
where `ceil = 256` and the `uint8` cast wraps to 0.  Each refutes the
claim that every successfully constructed filter satisfies
`len(bits) >= 1` and `k >= 1`. -/
theorem C6_invariants_counterexample :
    FromSerialized [0xc4, 0, 0xcc, 0] = .ok (Filter.mk [] 0) ∧
    NewFilterFromEntriesAndFP 1000 (4 / 5) =
      .ok (Filter.mk (List.replicate 59 0) 0) ∧
    NewFilterFromEntriesAndSize 1000 45986 =
      .ok (Filter.mk (List.replicate 45986 0) 0) :=
  ⟨rfl, fp_k_zero, size_k_wrap⟩

/-- C6 (amended): every successful constructor except `FromSerialized`
yields `len(bits) >= 1`, and only `NewFilterFromBits` also guarantees
`k >= 1`: the `uint8(k)` cast lets the size constructor wrap `k` to 0,
the FP constructor's rounding can reach `k = 0`, and `FromSerialized`
applies no validation at all (see the counterexample). -/
theorem C6_invariants_amended (entries size : ℤ) (fpRate : ℝ)
    (bits : List Nat) (k : Nat) :
    (∀ f, NewFilterFromEntriesAndSize entries size = .ok f →
      1 ≤ f.bits.length) ∧
    (∀ f, NewFilterFromBits bits k = .ok f → 1 ≤ f.bits.length ∧ 1 ≤ f.k) ∧
    (∀ f, NewFilterFromEntriesAndFP entries fpRate = .ok f →
      1 ≤ f.bits.length) := by
  have hlpos : (0 : ℝ) < Real.log 2 := Real.log_pos (by norm_num)
  refine ⟨?_, ?_, ?_⟩
  · intro f hok
    unfold NewFilterFromEntriesAndSize at hok
    by_cases he : entries ≤ 0
    · rw [if_pos he] at hok; exact absurd hok (by simp)
    by_cases hs : size ≤ 0
    · rw [if_neg he, if_pos hs] at hok; exact absurd hok (by simp)
    rw [if_neg he, if_neg hs] at hok
    injection hok with hok
    subst hok
    push_neg at hs
    simp only [List.length_replicate]
    omega
  · intro f hok
    unfold NewFilterFromBits at hok
    by_cases hb : bits.length = 0
    · rw [if_pos hb] at hok; exact absurd hok (by simp)
    by_cases hk : k = 0
    · rw [if_neg hb, if_pos hk] at hok; exact absurd hok (by simp)
    rw [if_neg hb, if_neg hk] at hok
    injection hok with hok
    subst hok
    exact ⟨by show 1 ≤ bits.length; omega, by show 1 ≤ k; omega⟩
  · intro f hok
    unfold NewFilterFromEntriesAndFP at hok
    by_cases he : entries ≤ 0
    · rw [if_pos he] at hok; exact absurd hok (by simp)
    by_cases hf : fpRate ≤ 0 ∨ 1 ≤ fpRate
    · rw [if_neg he, if_pos hf] at hok; exact absurd hok (by simp)
    rw [if_neg he, if_neg hf] at hok
    injection hok with hok
    subst hok
    push_neg at he hf
    have hee : (0 : ℝ) < (entries : ℝ) := by exact_mod_cast he
    have hlneg : Real.log fpRate < 0 := Real.log_neg hf.1 hf.2
    have hm0 : (0 : ℝ) < -(entries : ℝ) * Real.log fpRate / Real.log 2 ^ 2 := by
      apply div_pos
      · nlinarith
      · positivity
    have hc : 0 < (⌈-(entries : ℝ) * Real.log fpRate / Real.log 2 ^ 2 / 8⌉ : ℤ) :=
      Int.ceil_pos.mpr (by linarith)
    simp only [List.length_replicate]
    omega

/-- C6 witness: the raw-bits constructor case at a concrete input. -/
theorem C6_invariants_amended_witness :
    1 ≤ (Filter.mk [0] 1).bits.length ∧ 1 ≤ (Filter.mk [0] 1).k :=
  (C6_invariants_amended 1 1 (1 / 2) [0] 1).2.1 (Filter.mk [0] 1) rfl

end PBloom
